import Mathlib

/-!
# A shallow embedding of the `moga` multi-objective optimization library

This file embeds, in Lean 4, the parts of the `moga` Rust library that its
specification talks about: the Pareto-dominance primitive (`src/score.rs`),
the NSGA-II engine (`src/optimizer/nsga.rs`), the SPEA-II engine
(`src/optimizer/spea.rs`), the sequential recombination executor
(`src/recombination.rs`) and the stock generation terminator
(`src/termination.rs`).

Modelling conventions:
* `f32`/`f64` values are modelled as exact rationals (`ℚ`).  None of the
  properties proved here depends on rounding; they concern control flow,
  lengths, orderings and branch selection, which agree with the exact model.
  Where NaN behaviour itself is the property (the dominance comparison),
  a dedicated type `Fl` with an explicit NaN inhabitant is used.
* Rust panics (`expect`, failed `assert!`, index out of bounds, arithmetic
  underflow) are modelled by returning `none` from an `Option`-valued
  function.  Rust `while` loops are modelled by fuel-indexed recursion;
  exhausted fuel (`none`) models divergence, which the source loops exhibit
  on exactly the inputs where the model's fuel runs out.
* Stateful operators are modelled by explicit state passing; the engines take
  the user-supplied operator executors as plain function arguments.
-/

/-- Total comparison of two rationals, the exact-value model of
`f32::partial_cmp`/`f64::total_cmp` on non-NaN values. -/
def cmpQ (a b : ℚ) : Ordering :=
  if a < b then .lt else if b < a then .gt else .eq

/-- From `src/score.rs`, `impl ParetoDominance for [Score]::dominance`, for
NaN-free score slices: scan the zipped coordinates keeping a tentative
`Ordering`; a coordinate pair whose absolute values compare opposite to the
tentative result makes the whole comparison return `Equal` immediately;
equal absolute values leave the tentative result unchanged.  `Less` means
`self` dominates `other`. -/
def dominance_go (ord : Ordering) : List (ℚ × ℚ) → Ordering
  | [] => ord
  | p :: rest =>
    -- `a.abs().partial_cmp(&b.abs())` on exact values
    let next := cmpQ |p.1| |p.2|
    match ord with
    | .eq => dominance_go next rest
    | .lt => if next = .gt then .eq else dominance_go .lt rest
    | .gt => if next = .lt then .eq else dominance_go .gt rest

/-- `[Score]::dominance` over NaN-free scores: the scan starts from
`Ordering::Equal` and walks `self.iter().zip(other)`. -/
def dominance (a b : List ℚ) : Ordering :=
  dominance_go .eq (a.zip b)

/-- An `f32` value as the dominance comparison sees it: either NaN or an
exact (finite) value.  Infinities are not needed by any claim and are not
modelled. -/
inductive Fl where
  | nan : Fl
  | fin (q : ℚ) : Fl
deriving DecidableEq, Repr

/-- `f32::abs`: NaN stays NaN, a finite value maps to its absolute value. -/
def Fl.abs : Fl → Fl
  | .nan => .nan
  | .fin q => .fin |q|

/-- `a.abs().partial_cmp(&b.abs())`: `none` iff either absolute value is
NaN. -/
def abs_partial_cmp (a b : Fl) : Option Ordering :=
  match a.abs, b.abs with
  | .fin x, .fin y => some (cmpQ x y)
  | _, _ => none

/-- The panic raised by `.expect("NaN encountered")` in
`ParetoDominance::dominance`. -/
inductive DomPanic where
  | nanEncountered : DomPanic
deriving DecidableEq, Repr

/-- `[Score]::dominance` with NaN modelled: each coordinate comparison uses
`partial_cmp` on absolute values and panics (error) the moment it returns
`None`.  Otherwise the state machine is the same as `dominance_go`. -/
def dominance_fl_go (ord : Ordering) : List (Fl × Fl) → Except DomPanic Ordering
  | [] => .ok ord
  | p :: rest =>
    match abs_partial_cmp p.1 p.2 with
    | none => .error .nanEncountered
    | some next =>
      match ord with
      | .eq => dominance_fl_go next rest
      | .lt => if next = .gt then .ok .eq else dominance_fl_go .lt rest
      | .gt => if next = .lt then .ok .eq else dominance_fl_go .gt rest

/-- `[Score]::dominance` on possibly-NaN scores. -/
def dominance_fl (a b : List Fl) : Except DomPanic Ordering :=
  dominance_fl_go .eq (a.zip b)

/-- `itertools`' `combinations(P)` as used by the sequential recombination
executor in `src/recombination.rs`: every P-element combination of the input,
keeping the input's relative order, enumerated lexicographically by index. -/
def combinations {α : Type} : ℕ → List α → List (List α)
  | 0, _ => [[]]
  | _ + 1, [] => []
  | p + 1, x :: xs => (combinations p xs).map (x :: ·) ++ combinations (p + 1) xs

/-- From `src/recombination.rs`, the `SequentialExecutionStrategy` impl of
`RecombinationExecutor::execute_recombination`: enumerate every `P`-element
combination of the parent references, apply the operator to each and flatten
the resulting offspring arrays.  The operator (a `Recombination<S, P, O>`) is
passed as a function on lists; its contract (`P` parents in, `O` offspring
out) is a hypothesis of the theorems. -/
def execute_recombination {α : Type} (P : ℕ) (recombine : List α → List α)
    (parents : List α) : List α :=
  (combinations P parents).flatMap recombine

/-- From `src/termination.rs`, `impl Terminator for GenerationTerminator`:
the stored counter is the state; a call at counter `0` reports termination,
otherwise the counter is decremented and the call reports `false`.  The
solution and score slices are ignored. -/
def generation_terminator_step {σ : Type} (k : ℕ) (_solutions : List σ)
    (_scores : List (List ℚ)) : Bool × ℕ :=
  match k with
  | 0 => (true, 0)
  | n + 1 => (false, n)

/-- From `src/optimizer/nsga.rs`, the `population` setter of the `Nsga2`
builder: its `transform` panics (`none`) on an empty initial population and
stores the population unchanged otherwise. -/
def nsga2_builder_population {σ : Type} (v : List σ) : Option (List σ) :=
  if v.isEmpty then none else some v

/-- The data the `Spea2` builder stores that the claims are about. -/
structure Spea2Config (σ : Type) where
  population : List σ
  archive_size : ℕ
deriving DecidableEq, Repr

/-- From `src/optimizer/spea.rs`, the `Spea2` `TypedBuilder`: unlike the
NSGA-II builder, its `population` and `archive_size` setters carry no
`transform` and perform no validation, so construction accepts every input
(including an empty population and `archive_size = 0`); the repository's own
tests `test_creation_initial_population_empty` and
`test_creation_archive_size_zero` build such optimizers successfully. -/
def spea2_build {σ : Type} (population : List σ) (archive_size : ℕ) :
    Option (Spea2Config σ) :=
  some ⟨population, archive_size⟩

/-- The error type returned by `Spea2::optimize`.  Modelled from the spec:
the declaration of `OptimizationError` itself is not among the provided
sources (only its uses in `src/optimizer/spea.rs` are); its variants and
fields are fixed by those uses and by the spec's error taxonomy
(`PopulationEmpty`, `ScoreCountMismatch { actual, expected }`). -/
inductive OptimizationError where
  | populationEmpty : OptimizationError
  | scoreCountMismatch (actual expected : ℕ) : OptimizationError
deriving DecidableEq, Repr

/-- Insert `x` into a list, stably: `x` goes in front of the first element
`y` with `le x y`. -/
def stable_insert {α : Type} (le : α → α → Bool) (x : α) : List α → List α
  | [] => [x]
  | y :: ys => if le x y then x :: y :: ys else y :: stable_insert le x ys

/-- Stable insertion sort by a boolean "may come before" relation.  This
models Rust's stable `slice::sort_by(c)` (with `le a b` standing for
`c(a, b) != Greater`): for the total preorders used in this file every
stable sort produces the same output, so the algorithm choice is
immaterial.  It is also used for `sort_unstable_by`, whose tie order is
unspecified in Rust; no property proved here depends on that tie order. -/
def stable_sort {α : Type} (le : α → α → Bool) : List α → List α
  | [] => []
  | x :: xs => stable_insert le x (stable_sort le xs)

/-- The integer square root, modelling `(m as f64).sqrt() as usize` in
SPEA-II's choice of `k` (exact for every archive size that fits in an
`f64` mantissa). -/
def nat_sqrt (n : ℕ) : ℕ :=
  ((List.range (n + 1)).filter (fun k => k * k ≤ n)).length - 1

/-! ## NSGA-II (`src/optimizer/nsga.rs`) -/

/-- `FrontNumber::MAX`, the sentinel initial front number (`u32::MAX`). -/
def u32MAX : ℕ := 2 ^ 32 - 1

/-- `f64::MAX`, the sentinel used for the crowding distance of the sorted
front's extreme members; the exact value `(2^53 - 1) * 2^971`, written as a
literal so that it evaluates without unary exponentiation. -/
def f64MAX : ℚ := 179769313486231570814527423731704356798070567525844996598917476803157260780028538760589558632766878171540458953514382464234321326889464182768467546703537516986049910576551282076245490090389328944075868508455133942304583236903222948165808559332123348274797826204144723168738177180919299881250404026184124858368

/-- `scores[i][o]` for aligned inputs (see callers: all indices are in range
wherever the source would otherwise panic). -/
def score_at (scs : List (List ℚ)) (i o : ℕ) : ℚ :=
  (scs.getD i []).getD o 0

/-- The first phase of `Nsga2::crowding_distance_selection` (the "fill
dominance sets and counters" double loop): for every pair `p < q` of indices
into `scores`, compare once and record the outcome in the dominance lists and
dominance counters. -/
def nsga2_pair_scan (scs : List (List ℚ)) : List (List ℕ) × List ℕ :=
  let n := scs.length
  (List.range n).foldl
    (fun st p =>
      (List.range' (p + 1) (n - (p + 1))).foldl
        (fun (st : List (List ℕ) × List ℕ) q =>
          match dominance (scs.getD p []) (scs.getD q []) with
          | .lt => (st.1.set p (st.1.getD p [] ++ [q]), st.2.set q (st.2.getD q 0 + 1))
          | .gt => (st.1.set q (st.1.getD q [] ++ [p]), st.2.set p (st.2.getD p 0 + 1))
          | .eq => st)
        st)
    (List.replicate n [], List.replicate n 0)

/-- One iteration of the front-building `while` loop's body: for each `p` in
the last front and each `q` dominated by `p`, decrement `q`'s dominance
counter; when it reaches zero, stamp `q`'s front number and push `q` onto the
next front.  State: `(counters, front_numbers, next_front)`.  The source
decrements a `u32` (underflow would panic in debug, but a counter reaches
zero at most once); the model's saturating `Nat` subtraction agrees on every
reachable state. -/
def nsga2_next_front (domLists : List (List ℕ)) (frontIdx : ℕ)
    (counters frontNumbers lastFront : List ℕ) : List ℕ × List ℕ × List ℕ :=
  lastFront.foldl
    (fun (st : List ℕ × List ℕ × List ℕ) p =>
      (domLists.getD p []).foldl
        (fun (st : List ℕ × List ℕ × List ℕ) q =>
          let cnts := st.1.set q (st.1.getD q 0 - 1)
          if cnts.getD q 0 = 0 then
            (cnts, st.2.1.set q frontIdx, st.2.2 ++ [q])
          else
            (cnts, st.2.1, st.2.2))
        st)
    (counters, frontNumbers, [])

/-- The front-building `while` loop of `crowding_distance_selection`: keep
growing fronts until the selected indices plus the last front reach
`initial_population_size`.  `fuel` bounds the iteration count; the callers
pass enough fuel for every terminating run of the source loop, so `none`
models divergence of the source. Returns
`(new_solutions_indices, last_front, front_numbers)`. -/
def nsga2_select_fronts (initSize : ℕ) (domLists : List (List ℕ)) :
    ℕ → List ℕ → List ℕ → List ℕ → List ℕ → ℕ →
    Option (List ℕ × List ℕ × List ℕ)
  | fuel, counters, lastFront, acc, frontNumbers, frontIdx =>
    if acc.length + lastFront.length < initSize then
      match fuel with
      | 0 => none
      | f + 1 =>
        let st := nsga2_next_front domLists frontIdx counters frontNumbers lastFront
        nsga2_select_fronts initSize domLists f st.1 st.2.2 (acc ++ lastFront) st.2.1
          (frontIdx + 1)
    else
      some (acc, lastFront, frontNumbers)

/-- The crowding-distance block of `crowding_distance_selection`
(`src/optimizer/nsga.rs`, the `if last_front.len() > 2` block): when the last
front has more than 2 members, for each objective sort the front ascending by
that objective's score, set the crowding distances of the first and last
front members (by solution index) to `f64::MAX`, and for each raw index
`idx` in `2..last_front.len() - 2` whose crowding-distance entry is not
`f64::MAX`, add `|cd[idx + 1] - cd[idx - 1]| / score_diff` to `cd[idx]` —
note that the source indexes the crowding-distance vector by the loop
position `idx`, not by the front member `last_front[idx]`; finally sort the
front by crowding distance descending.  Returns the updated front and the
crowding-distance vector (length `n`, one entry per solution). -/
def crowding_distance_block (front : List ℕ) (scs : List (List ℚ))
    (nObj n : ℕ) : List ℕ × List ℚ :=
  let cds : List ℚ := List.replicate n 0
  if 2 < front.length then
    let st := (List.range nObj).foldl
      (fun (st : List ℕ × List ℚ) oIdx =>
        let f := stable_sort (fun a b =>
          decide (score_at scs a oIdx ≤ score_at scs b oIdx)) st.1
        let firstIdx := f.getD 0 0
        let lastIdx := f.getD (f.length - 1) 0
        let cd1 := (st.2.set firstIdx f64MAX).set lastIdx f64MAX
        let minScore := score_at scs firstIdx oIdx
        let maxScore := score_at scs lastIdx oIdx
        let scoreDiff := if maxScore ≠ minScore then maxScore - minScore else 1
        let cd2 := (List.range' 2 (f.length - 4)).foldl
          (fun (cd : List ℚ) idx =>
            if cd.getD idx 0 ≠ f64MAX then
              cd.set idx (cd.getD idx 0 + |cd.getD (idx + 1) 0 - cd.getD (idx - 1) 0| / scoreDiff)
            else cd)
          cd1
        (f, cd2))
      (front, cds)
    (stable_sort (fun a b => decide (st.2.getD b 0 ≤ st.2.getD a 0)) st.1, st.2)
  else
    (front, cds)

/-- The extraction at the end of `crowding_distance_selection`: the solutions
and scores are wrapped in `Option`s and `take`n by index; a repeated or
out-of-range index panics (`expect("must be something here")`), modelled as
`none`. -/
def take_all {σ τ : Type} : List ℕ → List (Option σ) → List (Option τ) →
    Option (List σ × List τ)
  | [], _, _ => some ([], [])
  | i :: rest, ss, cs =>
    match ss.getD i none, cs.getD i none with
    | some s, some c =>
      match take_all rest (ss.set i none) (cs.set i none) with
      | some (a, b) => some (s :: a, c :: b)
      | none => none
    | _, _ => none

/-- `Nsga2::crowding_distance_selection`: fast non-dominated sorting followed
by crowding-distance truncation of the last partially admitted front, then a
stable sort of the surviving indices by `(front number ascending, crowding
distance descending)` and extraction of the surviving solutions and scores.
The source builds `first_front` by pushing `p` as soon as `p`'s pair row is
finished, at which point `p`'s counter is final; filtering the final
counters in index order yields the same list.  The engine only calls this
with `scores.len() = solutions.len()` (it asserts exactly that beforehand);
misaligned inputs, on which the source's slice indexing and dominance
bookkeeping panic, are modelled as failure. -/
def crowding_distance_selection {σ : Type} (initSize : ℕ) (sols : List σ)
    (scs : List (List ℚ)) (nObj : ℕ) : Option (List σ × List (List ℚ)) :=
  if scs.length = sols.length then
    let n := sols.length
    let scan := nsga2_pair_scan scs
    let firstFront := (List.range n).filter (fun i => scan.2.getD i 0 = 0)
    match nsga2_select_fronts initSize scan.1 (n + 1) scan.2 firstFront []
        (List.replicate n u32MAX) 0 with
    | none => none
    | some (acc, lastFront, frontNumbers) =>
      let cb := crowding_distance_block lastFront scs nObj n
      let newIdx := (acc ++ cb.1).take initSize
      let sortedIdx := stable_sort (fun a b =>
        decide (frontNumbers.getD a 0 < frontNumbers.getD b 0 ∨
          (frontNumbers.getD a 0 = frontNumbers.getD b 0 ∧
            cb.2.getD b 0 ≤ cb.2.getD a 0))) newIdx
      take_all sortedIdx (sols.map some) (scs.map some)
  else none

/-- The generational `while` loop of `Nsga2::optimize`, with the operator
executors passed as functions and the (stateful) terminator as a step
function.  Returns the final population paired with the number of loop-body
executions (generations); `none` models a panic inside the loop (the
`assert!`s) or exhausted fuel. -/
def nsga2_loop {σ τ : Type} (tester : List σ → List (List ℚ))
    (selector : List σ → List (List ℚ) → List σ)
    (recombiner : List σ → List σ) (mutator : List σ → List σ)
    (termStep : τ → List σ → List (List ℚ) → Bool × τ) (initSize nObj : ℕ) :
    ℕ → τ → List σ → List (List ℚ) → Option (List σ × ℕ)
  | fuel, ts, pop, scs =>
    let t := termStep ts pop scs
    if t.1 then some (pop, 0)
    else
      match fuel with
      | 0 => none
      | f + 1 =>
        if pop.isEmpty then none
        else if scs.length ≠ pop.length then none
        else
          let selected := selector pop scs
          let created := mutator (recombiner selected)
          let createdScores := tester created
          match crowding_distance_selection initSize (pop ++ created)
              (scs ++ createdScores) nObj with
          | none => none
          | some (pop2, scs2) =>
            match nsga2_loop tester selector recombiner mutator termStep initSize
                nObj f t.2 pop2 scs2 with
            | none => none
            | some (res, g) => some (res, g + 1)

/-- `Nsga2::optimize`: score the initial population, then run the
generational loop.  `initSize` is the remembered `initial_population_size`
(the builder sets it to `population.len()`). -/
def nsga2_optimize {σ τ : Type} (tester : List σ → List (List ℚ))
    (selector : List σ → List (List ℚ) → List σ)
    (recombiner : List σ → List σ) (mutator : List σ → List σ)
    (termStep : τ → List σ → List (List ℚ) → Bool × τ) (initSize nObj fuel : ℕ)
    (ts : τ) (pop : List σ) : Option (List σ × ℕ) :=
  nsga2_loop tester selector recombiner mutator termStep initSize nObj fuel ts
    pop (tester pop)

/-! ## SPEA-II (`src/optimizer/spea.rs`) -/

/-- The squared Euclidean distance between two score vectors, as
`sorted_sol_distances` computes it: the per-coordinate squared differences of
the zipped vectors, summed. -/
def dist_sq (a b : List ℚ) : ℚ :=
  ((a.zip b).map (fun p => (p.1 - p.2) ^ 2)).sum

/-- `sorted_sol_distances` (`src/optimizer/spea.rs`): for each position `i`
into `sol_idx_fit`, the list of `(j, distance)` pairs to every other
position `j`, sorted ascending by distance.  The source pushes the pairs in
ascending `j` order and then sorts by distance (`sort_unstable_by`; the
model's stable sort is one of the orders the unstable sort may produce, and
no claim depends on the tie order). -/
def sorted_sol_distances (solIdxFit : List (ℕ × ℚ)) (scs : List (List ℚ)) :
    List (ℕ × List (ℕ × ℚ)) :=
  let m := solIdxFit.length
  (List.range m).map (fun i =>
    (i, (((List.range m).filter (fun j => j ≠ i)).map (fun j =>
          (j, dist_sq (scs.getD (solIdxFit.getD i (0, 0)).1 [])
                (scs.getD (solIdxFit.getD j (0, 0)).1 []))))
          |> stable_sort (fun a b => decide (a.2 ≤ b.2))))

/-- The lexicographic comparison of two sorted distance lists used by the
truncation loop's `min_by`: walk the zipped entries and return the first
non-`Equal` comparison of the distances; exhausting either list gives
`Equal`. -/
def lex_cmp_dists : List (ℕ × ℚ) → List (ℕ × ℚ) → Ordering
  | x :: xs, y :: ys =>
    match cmpQ x.2 y.2 with
    | .eq => lex_cmp_dists xs ys
    | o => o
  | _, _ => .eq

/-- Rust's `Iterator::min_by` over an enumerated list: the index of the first
minimal element (a later element replaces the current minimum only when
strictly smaller). -/
def min_idx_by {α : Type} (c : α → α → Ordering) (l : List α) : Option ℕ :=
  (l.enum.foldl
    (fun st p =>
      match st with
      | none => some p
      | some q => if c p.2 q.2 = .lt then some p else some q)
    none).map (·.1)

/-- The iterative nearest-neighbour removal loop of `environmental_selection`
(the `while nondom_idx_fit.len() > self.archive_size` loop): repeatedly find
the member whose sorted distance list is lexicographically smallest, remove
its row from the distance matrix, delete its entries from every other row
(panicking — `none` — if an entry is missing) and remove the member itself.
`fuel` bounds the iterations; callers pass the list length, which bounds
every terminating run. -/
def spea2_truncate (archiveSize : ℕ) :
    ℕ → List (ℕ × ℚ) → List (ℕ × List (ℕ × ℚ)) → Option (List (ℕ × ℚ))
  | fuel, nondom, dists =>
    if archiveSize < nondom.length then
      match fuel with
      | 0 => none
      | f + 1 =>
        match min_idx_by (fun a b => lex_cmp_dists a.2 b.2) dists with
        | none => none
        | some removedIdx =>
          let removedLabel := (dists.getD removedIdx (0, [])).1
          match (dists.eraseIdx removedIdx).mapM (fun row =>
              match row.2.findIdx? (fun e => e.1 == removedLabel) with
              | none => none
              | some k => some (row.1, row.2.eraseIdx k)) with
          | none => none
          | some dists2 =>
            spea2_truncate archiveSize f (nondom.eraseIdx removedIdx) dists2
    else some nondom

/-- The density pass of `environmental_selection`'s else-branch: for each row
`(idx, distances)` of the sorted distance matrix, add
`1 / (distances[k - 1].1 + 2)` to the fitness stored at position `idx` of
`sol_idx_fit`; an out-of-range `k - 1` (which the source hits when the
archive has a single member) panics, modelled as `none`. -/
def spea2_density_pass (k : ℕ) :
    List (ℕ × List (ℕ × ℚ)) → List (ℕ × ℚ) → Option (List (ℕ × ℚ))
  | [], sif => some sif
  | row :: rest, sif =>
    match row.2[k - 1]? with
    | none => none
    | some e =>
      let old := sif.getD row.1 (0, 0)
      spea2_density_pass k rest (sif.set row.1 (old.1, old.2 + 1 / (e.2 + 2)))

/-- The extraction at the end of `environmental_selection`: the solutions are
wrapped in `Option`s and `take`n (`std::mem::take(..).expect`); the score of
each surviving index is read by plain (copying) indexing, panicking when out
of range.  Both panics are modelled as `none`. -/
def spea2_extract {σ : Type} : List ℕ → List (Option σ) → List (List ℚ) →
    Option (List σ × List (List ℚ))
  | [], _, _ => some ([], [])
  | i :: rest, ss, scs =>
    match ss.getD i none, scs[i]? with
    | some s, some c =>
      match spea2_extract rest (ss.set i none) scs with
      | some (a, b) => some (s :: a, c :: b)
      | none => none
    | _, _ => none

/-- `Spea2::environmental_selection`: compute strength values and raw
fitness by two pairwise scans; when the non-dominated members (raw fitness
`< 1`) outnumber the archive size, truncate them by iterative
nearest-neighbour removal, otherwise add the k-th-neighbour density term
(`k = ⌊√M⌋`, the float square root truncated to an integer) to every
fitness, sort ascending by fitness and keep the first `archive_size`.
The engine only calls this with a non-empty archive and matching score
count (it returns the typed errors otherwise); an empty or misaligned
archive, on which the source's slice indexing panics, is modelled as
failure. -/
def environmental_selection {σ : Type} (archiveSize : ℕ) (sols : List σ)
    (scs : List (List ℚ)) : Option (List σ × List (List ℚ)) :=
  if sols.isEmpty then none
  else if scs.length = sols.length then
    let n := sols.length
    let strengths := (List.range (n - 1)).foldl
      (fun (sv : List ℕ) p =>
        (List.range' (p + 1) (n - (p + 1))).foldl
          (fun sv q =>
            match dominance (scs.getD p []) (scs.getD q []) with
            | .lt => sv.set p (sv.getD p 0 + 1)
            | .gt => sv.set q (sv.getD q 0 + 1)
            | .eq => sv)
          sv)
      (List.replicate n 0)
    let fits := (List.range (n - 1)).foldl
      (fun (ft : List ℚ) p =>
        (List.range' (p + 1) (n - (p + 1))).foldl
          (fun ft q =>
            match dominance (scs.getD p []) (scs.getD q []) with
            | .lt => ft.set q (ft.getD q 0 + (strengths.getD p 0 : ℚ))
            | .gt => ft.set p (ft.getD p 0 + (strengths.getD q 0 : ℚ))
            | .eq => ft)
          ft)
      (List.replicate n 0)
    let solIdxFit := (List.range n).map (fun i => (i, fits.getD i 0))
    let nondomCnt := solIdxFit.countP (fun p => decide (p.2 < 1))
    let chosen : Option (List (ℕ × ℚ)) :=
      if archiveSize < nondomCnt then
        let nondom := solIdxFit.filter (fun p => decide (p.2 < 1))
        spea2_truncate archiveSize nondom.length nondom
          (sorted_sol_distances nondom scs)
      else
        let k := nat_sqrt solIdxFit.length
        match spea2_density_pass k (sorted_sol_distances solIdxFit scs)
            solIdxFit with
        | none => none
        | some adjusted =>
          some ((stable_sort (fun a b => decide (a.2 ≤ b.2)) adjusted).take
            archiveSize)
    match chosen with
    | none => none
    | some picked => spea2_extract (picked.map (·.1)) (sols.map some) scs
  else none

/-- The final non-dominated extraction at the end of `Spea2::optimize`: a
boolean mask over the archive, cleared pairwise by dominance comparisons
(the flag of `i` is consulted once, before its inner loop).  On an empty
archive the source computes `selected_sols.len() - 1` on a `usize`, which
underflows and panics; modelled as `none`. -/
def final_extraction {σ : Type} (archive : List σ) (scs : List (List ℚ)) :
    Option (List σ) :=
  match archive with
  | [] => none
  | _ =>
    let n := archive.length
    let flags := (List.range (n - 1)).foldl
      (fun (flags : List Bool) i =>
        if flags.getD i false = false then flags
        else
          (List.range' (i + 1) (n - (i + 1))).foldl
            (fun (flags : List Bool) j =>
              match dominance (scs.getD i []) (scs.getD j []) with
              | .lt => flags.set j false
              | .gt => flags.set i false
              | .eq => flags)
            flags)
      (List.replicate n true)
    some ((archive.zip flags).filterMap (fun p => if p.2 then some p.1 else none))

/-- The generational `while` loop of `Spea2::optimize`: check the terminator
on the archive, merge the offspring population into the archive, validate it
(returning the typed errors `PopulationEmpty` / `ScoreCountMismatch` on
violation), run environmental selection and breed the next population.
Returns the optimizer's `Result` paired with the number of loop-body
executions; `none` models a panic. -/
def spea2_loop {σ τ : Type} (tester : List σ → List (List ℚ))
    (selector : List σ → List (List ℚ) → List σ)
    (recombiner : List σ → List σ) (mutator : List σ → List σ)
    (termStep : τ → List σ → List (List ℚ) → Bool × τ) (archiveSize : ℕ) :
    ℕ → τ → List σ → List (List ℚ) → List σ → List (List ℚ) →
    Option (Except OptimizationError (List σ) × ℕ)
  | fuel, ts, archive, archiveScores, pop, popScores =>
    let t := termStep ts archive archiveScores
    if t.1 then
      match final_extraction archive archiveScores with
      | none => none
      | some res => some (.ok res, 0)
    else
      match fuel with
      | 0 => none
      | f + 1 =>
        let merged := archive ++ pop
        let mergedScores := archiveScores ++ popScores
        if merged.isEmpty then some (.error .populationEmpty, 0)
        else if mergedScores.length ≠ merged.length then
          some (.error (.scoreCountMismatch mergedScores.length merged.length), 0)
        else
          match environmental_selection archiveSize merged mergedScores with
          | none => none
          | some (surv, survScores) =>
            let selected := selector surv survScores
            let created := mutator (recombiner selected)
            let createdScores := tester created
            match spea2_loop tester selector recombiner mutator termStep
                archiveSize f t.2 surv survScores created createdScores with
            | none => none
            | some (r, g) => some (r, g + 1)

/-- `Spea2::optimize`: score the initial population, start with an empty
archive and run the generational loop. -/
def spea2_optimize {σ τ : Type} (tester : List σ → List (List ℚ))
    (selector : List σ → List (List ℚ) → List σ)
    (recombiner : List σ → List σ) (mutator : List σ → List σ)
    (termStep : τ → List σ → List (List ℚ) → Bool × τ) (archiveSize fuel : ℕ)
    (ts : τ) (pop : List σ) : Option (Except OptimizationError (List σ) × ℕ) :=
  spea2_loop tester selector recombiner mutator termStep archiveSize fuel ts
    [] [] pop (tester pop)

/-! ## Spec-side renderings of the crowding-distance block (claim C2)

`crowding_distance_block` above is the source translation.  The two
definitions below render the *words* of claim C2: first the claim as stated,
then the claim amended to what the source does.  They are compared with the
source translation, never used by it. -/

/-- The crowding-distance computation as claim C2 states it: for each
objective, sort the front ascending, set the CD of the front's first and
last members to the sentinel, and for **every interior position** `k` of the
front (`1 ≤ k ≤ len - 2`) whose member's crowding distance is not the
sentinel, add `|CD[k+1] - CD[k-1]| / Δ` to it, reading and writing the
crowding distances *of the front members* at those positions; finally sort
the front by crowding distance descending. -/
def crowding_distance_block_per_claim_c2 (front : List ℕ) (scs : List (List ℚ))
    (nObj n : ℕ) : List ℕ × List ℚ :=
  let cds : List ℚ := List.replicate n 0
  if 2 < front.length then
    let st := (List.range nObj).foldl
      (fun (st : List ℕ × List ℚ) oIdx =>
        let f := stable_sort (fun a b =>
          decide (score_at scs a oIdx ≤ score_at scs b oIdx)) st.1
        let firstIdx := f.getD 0 0
        let lastIdx := f.getD (f.length - 1) 0
        let cd1 := (st.2.set firstIdx f64MAX).set lastIdx f64MAX
        let minScore := score_at scs firstIdx oIdx
        let maxScore := score_at scs lastIdx oIdx
        let scoreDiff := if maxScore ≠ minScore then maxScore - minScore else 1
        let cd2 := (List.range' 1 (f.length - 2)).foldl
          (fun (cd : List ℚ) k =>
            let m := f.getD k 0
            if cd.getD m 0 ≠ f64MAX then
              cd.set m (cd.getD m 0 +
                |cd.getD (f.getD (k + 1) 0) 0 - cd.getD (f.getD (k - 1) 0) 0| / scoreDiff)
            else cd)
          cd1
        (f, cd2))
      (front, cds)
    (stable_sort (fun a b => decide (st.2.getD b 0 ≤ st.2.getD a 0)) st.1, st.2)
  else
    (front, cds)

/-- The crowding-distance computation as claim C2 must be amended: the
additive pass runs over the positions `k = 2, 3, …, len - 3` only (none when
the front has fewer than 5 members), and it reads and writes the
crowding-distance array at the *raw* indices `k`, `k - 1`, `k + 1` — the loop
positions themselves, not the front members stored at those positions. -/
def crowding_distance_block_per_amended_c2 (front : List ℕ)
    (scs : List (List ℚ)) (nObj n : ℕ) : List ℕ × List ℚ :=
  let cds : List ℚ := List.replicate n 0
  if 2 < front.length then
    let st := (List.range nObj).foldl
      (fun (st : List ℕ × List ℚ) oIdx =>
        let f := stable_sort (fun a b =>
          decide (score_at scs a oIdx ≤ score_at scs b oIdx)) st.1
        let firstIdx := f.getD 0 0
        let lastIdx := f.getD (f.length - 1) 0
        let cd1 := (st.2.set firstIdx f64MAX).set lastIdx f64MAX
        let minScore := score_at scs firstIdx oIdx
        let maxScore := score_at scs lastIdx oIdx
        let scoreDiff := if maxScore ≠ minScore then maxScore - minScore else 1
        let cd2 := ((List.range (f.length - 4)).map (fun i => i + 2)).foldl
          (fun (cd : List ℚ) idx =>
            if cd.getD idx 0 ≠ f64MAX then
              cd.set idx (cd.getD idx 0 + |cd.getD (idx + 1) 0 - cd.getD (idx - 1) 0| / scoreDiff)
            else cd)
          cd1
        (f, cd2))
      (front, cds)
    (stable_sort (fun a b => decide (st.2.getD b 0 ≤ st.2.getD a 0)) st.1, st.2)
  else
    (front, cds)

/-! ## Helper lemmas -/

theorem cmpQ_eq_lt {a b : ℚ} : cmpQ a b = .lt ↔ a < b := by
  unfold cmpQ; split_ifs with h1 h2
  · simp [h1]
  · exact iff_of_false (by simp) h1
  · exact iff_of_false (by simp) h1

theorem cmpQ_eq_gt {a b : ℚ} : cmpQ a b = .gt ↔ b < a := by
  unfold cmpQ; split_ifs with h1 h2
  · exact iff_of_false (by simp) (not_lt.mpr h1.le)
  · simp [h2]
  · exact iff_of_false (by simp) h2

theorem cmpQ_eq_eq {a b : ℚ} : cmpQ a b = .eq ↔ a = b := by
  unfold cmpQ; split_ifs with h1 h2
  · exact iff_of_false (by simp) h1.ne
  · exact iff_of_false (by simp) (ne_of_gt h2)
  · exact iff_of_true rfl (le_antisymm (not_lt.mp h2) (not_lt.mp h1))

theorem dominance_go_lt_ne_gt (L : List (ℚ × ℚ)) : dominance_go .lt L ≠ .gt := by
  induction L with
  | nil => simp [dominance_go]
  | cons p rest ih =>
    simp only [dominance_go]
    split <;> simp [ih]

theorem dominance_go_gt_ne_lt (L : List (ℚ × ℚ)) : dominance_go .gt L ≠ .lt := by
  induction L with
  | nil => simp [dominance_go]
  | cons p rest ih =>
    simp only [dominance_go]
    split <;> simp [ih]

theorem dominance_go_lt_eq_lt (L : List (ℚ × ℚ)) :
    dominance_go .lt L = .lt ↔ ∀ p ∈ L, |p.1| ≤ |p.2| := by
  induction L with
  | nil => simp [dominance_go]
  | cons p rest ih =>
    simp only [dominance_go, List.forall_mem_cons]
    by_cases h : cmpQ |p.1| |p.2| = .gt
    · have hlt : |p.2| < |p.1| := cmpQ_eq_gt.mp h
      simp [h, not_le.mpr hlt]
    · have hle : |p.1| ≤ |p.2| := not_lt.mp (fun hc => h (cmpQ_eq_gt.mpr hc))
      simp [h, ih, hle]

theorem dominance_go_gt_eq_gt (L : List (ℚ × ℚ)) :
    dominance_go .gt L = .gt ↔ ∀ p ∈ L, |p.2| ≤ |p.1| := by
  induction L with
  | nil => simp [dominance_go]
  | cons p rest ih =>
    simp only [dominance_go, List.forall_mem_cons]
    by_cases h : cmpQ |p.1| |p.2| = .lt
    · have hlt : |p.1| < |p.2| := cmpQ_eq_lt.mp h
      simp [h, not_le.mpr hlt]
    · have hle : |p.2| ≤ |p.1| := not_lt.mp (fun hc => h (cmpQ_eq_lt.mpr hc))
      simp [h, ih, hle]

theorem dominance_go_eq_eq_lt (L : List (ℚ × ℚ)) :
    dominance_go .eq L = .lt ↔
      (∀ p ∈ L, |p.1| ≤ |p.2|) ∧ ∃ p ∈ L, |p.1| < |p.2| := by
  induction L with
  | nil => simp [dominance_go]
  | cons p rest ih =>
    simp only [dominance_go]
    rcases ho : cmpQ |p.1| |p.2| with _ | _ | _
    · have hlt := cmpQ_eq_lt.mp ho
      rw [dominance_go_lt_eq_lt, List.forall_mem_cons]
      constructor
      · intro hall
        exact ⟨⟨hlt.le, hall⟩, p, List.mem_cons_self p rest, hlt⟩
      · rintro ⟨⟨-, hall⟩, -⟩
        exact hall
    · have heq := cmpQ_eq_eq.mp ho
      rw [ih, List.forall_mem_cons]
      constructor
      · rintro ⟨hall, q, hq, hqlt⟩
        exact ⟨⟨heq.le, hall⟩, q, List.mem_cons_of_mem p hq, hqlt⟩
      · rintro ⟨⟨-, hall⟩, q, hq, hqlt⟩
        refine ⟨hall, ?_⟩
        rcases List.mem_cons.mp hq with rfl | hq
        · rw [heq] at hqlt
          exact absurd hqlt (lt_irrefl _)
        · exact ⟨q, hq, hqlt⟩
    · have hgt := cmpQ_eq_gt.mp ho
      constructor
      · intro hc
        exact absurd hc (dominance_go_gt_ne_lt rest)
      · rintro ⟨hall, -⟩
        exact absurd (hall p (List.mem_cons_self p rest)) (not_le.mpr hgt)

theorem dominance_go_eq_eq_gt (L : List (ℚ × ℚ)) :
    dominance_go .eq L = .gt ↔
      (∀ p ∈ L, |p.2| ≤ |p.1|) ∧ ∃ p ∈ L, |p.2| < |p.1| := by
  induction L with
  | nil => simp [dominance_go]
  | cons p rest ih =>
    simp only [dominance_go]
    rcases ho : cmpQ |p.1| |p.2| with _ | _ | _
    · have hlt := cmpQ_eq_lt.mp ho
      constructor
      · intro hc
        exact absurd hc (dominance_go_lt_ne_gt rest)
      · rintro ⟨hall, -⟩
        exact absurd (hall p (List.mem_cons_self p rest)) (not_le.mpr hlt)
    · have heq := cmpQ_eq_eq.mp ho
      rw [ih, List.forall_mem_cons]
      constructor
      · rintro ⟨hall, q, hq, hqlt⟩
        exact ⟨⟨heq.ge, hall⟩, q, List.mem_cons_of_mem p hq, hqlt⟩
      · rintro ⟨⟨-, hall⟩, q, hq, hqlt⟩
        refine ⟨hall, ?_⟩
        rcases List.mem_cons.mp hq with rfl | hq
        · rw [heq] at hqlt
          exact absurd hqlt (lt_irrefl _)
        · exact ⟨q, hq, hqlt⟩
    · have hgt := cmpQ_eq_gt.mp ho
      rw [dominance_go_gt_eq_gt, List.forall_mem_cons]
      constructor
      · intro hall
        exact ⟨⟨hgt.le, hall⟩, p, List.mem_cons_self p rest, hgt⟩
      · rintro ⟨⟨-, hall⟩, -⟩
        exact hall

theorem zip_forall_iff {a b : List ℚ} (h : a.length = b.length)
    (R : ℚ → ℚ → Prop) :
    (∀ p ∈ a.zip b, R p.1 p.2) ↔ ∀ i < a.length, R (a.getD i 0) (b.getD i 0) := by
  constructor
  · intro hz i hi
    have hiz : i < (a.zip b).length := by
      rw [List.length_zip, ← h, Nat.min_self]
      exact hi
    have hm := hz ((a.zip b)[i]) (List.mem_iff_getElem.mpr ⟨i, hiz, rfl⟩)
    rw [List.getElem_zip] at hm
    rwa [List.getD_eq_getElem a 0 hi, List.getD_eq_getElem b 0 (h ▸ hi)]
  · intro hidx p hp
    obtain ⟨i, hiz, rfl⟩ := List.mem_iff_getElem.mp hp
    have hia : i < a.length := by
      rw [List.length_zip, h, Nat.min_self] at hiz
      exact h ▸ hiz
    rw [List.getElem_zip]
    have := hidx i hia
    rwa [List.getD_eq_getElem a 0 hia, List.getD_eq_getElem b 0 (h ▸ hia)] at this

theorem zip_exists_iff {a b : List ℚ} (h : a.length = b.length)
    (R : ℚ → ℚ → Prop) :
    (∃ p ∈ a.zip b, R p.1 p.2) ↔ ∃ i < a.length, R (a.getD i 0) (b.getD i 0) := by
  constructor
  · rintro ⟨p, hp, hr⟩
    obtain ⟨i, hiz, rfl⟩ := List.mem_iff_getElem.mp hp
    have hia : i < a.length := by
      rw [List.length_zip, h, Nat.min_self] at hiz
      exact h ▸ hiz
    refine ⟨i, hia, ?_⟩
    rw [List.getElem_zip] at hr
    rwa [List.getD_eq_getElem a 0 hia, List.getD_eq_getElem b 0 (h ▸ hia)]
  · rintro ⟨i, hi, hr⟩
    have hiz : i < (a.zip b).length := by
      rw [List.length_zip, ← h, Nat.min_self]
      exact hi
    refine ⟨(a.zip b)[i], List.mem_iff_getElem.mpr ⟨i, hiz, rfl⟩, ?_⟩
    rw [List.getElem_zip]
    rwa [List.getD_eq_getElem a 0 hi, List.getD_eq_getElem b 0 (h ▸ hi)] at hr

/-- Claim C1: for score arrays of equal length, `dominance` returns `Less`
(`a` dominates `b`) iff every coordinate of `a` is absolutely no larger than
the corresponding coordinate of `b` and at least one is absolutely strictly
smaller; symmetrically it returns `Greater` iff `b` dominates `a`; in every
other case (equal absolute values everywhere, incomparable mixes, and empty
arrays) it returns `Equal`. -/
theorem dominance_characterization_c1 (a b : List ℚ) (h : a.length = b.length) :
    (dominance a b = .lt ↔
      (∀ i < a.length, |a.getD i 0| ≤ |b.getD i 0|) ∧
        ∃ i < a.length, |a.getD i 0| < |b.getD i 0|) ∧
    (dominance a b = .gt ↔
      (∀ i < a.length, |b.getD i 0| ≤ |a.getD i 0|) ∧
        ∃ i < a.length, |b.getD i 0| < |a.getD i 0|) ∧
    (¬((∀ i < a.length, |a.getD i 0| ≤ |b.getD i 0|) ∧
        ∃ i < a.length, |a.getD i 0| < |b.getD i 0|) →
      ¬((∀ i < a.length, |b.getD i 0| ≤ |a.getD i 0|) ∧
        ∃ i < a.length, |b.getD i 0| < |a.getD i 0|) →
      dominance a b = .eq) := by
  have h1 : dominance a b = .lt ↔
      (∀ i < a.length, |a.getD i 0| ≤ |b.getD i 0|) ∧
        ∃ i < a.length, |a.getD i 0| < |b.getD i 0| := by
    rw [dominance, dominance_go_eq_eq_lt,
      zip_forall_iff h (fun x y => |x| ≤ |y|), zip_exists_iff h (fun x y => |x| < |y|)]
  have h2 : dominance a b = .gt ↔
      (∀ i < a.length, |b.getD i 0| ≤ |a.getD i 0|) ∧
        ∃ i < a.length, |b.getD i 0| < |a.getD i 0| := by
    rw [dominance, dominance_go_eq_eq_gt,
      zip_forall_iff h (fun x y => |y| ≤ |x|), zip_exists_iff h (fun x y => |y| < |x|)]
  refine ⟨h1, h2, fun hnl hng => ?_⟩
  rcases ho : dominance a b with _ | _ | _
  · exact absurd (h1.mp ho) hnl
  · rfl
  · exact absurd (h2.mp ho) hng

/-- Witness for C1 at the spec's own dominance-table inputs. -/
theorem dominance_characterization_c1_witness :
    dominance [1, 2, 3] [10, 2, 3] = .lt ∧ dominance [-2, 2, -3] [-1, 1, 2] = .gt := by
  constructor
  · exact (dominance_characterization_c1 [1, 2, 3] [10, 2, 3] (by decide)).1.mpr
      (by with_unfolding_all decide)
  · exact ((dominance_characterization_c1 [-2, 2, -3] [-1, 1, 2] (by decide)).2.1).mpr
      (by with_unfolding_all decide)

theorem dominance_fl_go_ok_of_no_nan :
    ∀ (L : List (Fl × Fl)) (ord : Ordering),
      (∀ p ∈ L, (abs_partial_cmp p.1 p.2).isSome) →
      ∃ o, dominance_fl_go ord L = .ok o := by
  intro L
  induction L with
  | nil => exact fun ord _ => ⟨ord, rfl⟩
  | cons p rest ih =>
    intro ord hall
    have hp := hall p (List.mem_cons_self p rest)
    obtain ⟨next, hnext⟩ := Option.isSome_iff_exists.mp hp
    have hrest : ∀ q ∈ rest, (abs_partial_cmp q.1 q.2).isSome :=
      fun q hq => hall q (List.mem_cons_of_mem p hq)
    rcases ord with _ | _ | _
    · simp only [dominance_fl_go, hnext]
      split
      · exact ⟨.eq, rfl⟩
      · exact ih .lt hrest
    · simp only [dominance_fl_go, hnext]
      exact ih next hrest
    · simp only [dominance_fl_go, hnext]
      split
      · exact ⟨.eq, rfl⟩
      · exact ih .gt hrest

/-- Claim C6: whenever the dominance comparison reaches a coordinate pair
whose absolute values cannot be ordered because one of them is NaN, it fails
fatally with the NaN-encountered panic, whatever the tentative ordering and
whatever coordinates remain; and the comparison never fails when every
zipped coordinate pair is NaN-free, so the error arises exactly from a NaN
comparison and the library never silently orders NaN. -/
theorem dominance_fl_nan_fatal_c6 :
    (∀ (ord : Ordering) (x y : Fl) (rest : List (Fl × Fl)),
        abs_partial_cmp x y = none →
        dominance_fl_go ord ((x, y) :: rest) = .error .nanEncountered) ∧
    (∀ (a b : List Fl),
        (∀ p ∈ a.zip b, (abs_partial_cmp p.1 p.2).isSome) →
        ∃ o, dominance_fl a b = .ok o) := by
  constructor
  · intro ord x y rest hnone
    rcases ord with _ | _ | _ <;> simp [dominance_fl_go, hnone]
  · intro a b hall
    exact dominance_fl_go_ok_of_no_nan (a.zip b) .eq hall

/-- Witness for C6: comparing `[NaN, 5.0]` with `[1.0, 2.0]` panics at the
first coordinate, while the NaN-free `[1.0]` vs `[2.0]` comparison
succeeds. -/
theorem dominance_fl_nan_fatal_c6_witness :
    dominance_fl_go .eq [(Fl.nan, Fl.fin 1), (Fl.fin 5, Fl.fin 2)] =
      .error .nanEncountered ∧
    ∃ o, dominance_fl [Fl.fin 1] [Fl.fin 2] = .ok o := by
  constructor
  · exact dominance_fl_nan_fatal_c6.1 .eq .nan (.fin 1) [(Fl.fin 5, Fl.fin 2)] rfl
  · exact dominance_fl_nan_fatal_c6.2 [Fl.fin 1] [Fl.fin 2] (by decide)

theorem combinations_length {α : Type} (p : ℕ) (l : List α) :
    (combinations p l).length = l.length.choose p := by
  induction l generalizing p with
  | nil => cases p <;> simp [combinations]
  | cons x xs ih =>
    cases p with
    | zero => simp [combinations]
    | succ p =>
      simp [combinations, ih, Nat.choose_succ_succ, Nat.add_comm]

theorem combinations_mem_length {α : Type} {p : ℕ} {l c : List α}
    (hc : c ∈ combinations p l) : c.length = p := by
  induction l generalizing p c with
  | nil =>
    cases p with
    | zero => simp [combinations] at hc; simp [hc]
    | succ p => simp [combinations] at hc
  | cons x xs ih =>
    cases p with
    | zero => simp [combinations] at hc; simp [hc]
    | succ p =>
      rcases List.mem_append.mp hc with hc | hc
      · obtain ⟨d, hd, rfl⟩ := List.mem_map.mp hc
        simp [ih hd]
      · exact ih hc

theorem flatMap_length_const {α β : Type} (f : List α → List β) (O : ℕ) :
    ∀ (L : List (List α)), (∀ c ∈ L, (f c).length = O) →
      (L.flatMap f).length = L.length * O := by
  intro L
  induction L with
  | nil => simp
  | cons c rest ih =>
    intro hall
    simp only [List.flatMap_cons, List.length_append, List.length_cons]
    rw [hall c (List.mem_cons_self c rest),
      ih (fun d hd => hall d (List.mem_cons_of_mem c hd))]
    ring

theorem combinations_small {α : Type} :
    ∀ (p : ℕ) (l : List α), l.length < p → combinations p l = [] := by
  intro p l
  induction l generalizing p with
  | nil => cases p <;> simp [combinations]
  | cons x xs ih =>
    cases p with
    | zero => simp
    | succ p =>
      intro hl
      simp only [List.length_cons, Nat.succ_lt_succ_iff] at hl
      simp [combinations, ih p hl, ih (p + 1) (Nat.lt_succ_of_lt hl)]

/-- Claim C8: with the per-item executor's parameters `P` and `O` (the
operator consuming `P` parents and producing `O` offspring), the offspring
vector of `execute_recombination` on `m` parents has exactly
`C(m, P) * O` elements; in particular an empty input, or any input with
fewer than `P` parents, produces an empty offspring list. -/
theorem execute_recombination_count_c8 {α : Type} (P O : ℕ)
    (recombine : List α → List α)
    (hO : ∀ c, c.length = P → (recombine c).length = O) (parents : List α) :
    (execute_recombination P recombine parents).length =
      parents.length.choose P * O ∧
    (parents.length < P → execute_recombination P recombine parents = []) := by
  constructor
  · unfold execute_recombination
    rw [flatMap_length_const recombine O (combinations P parents)
        (fun c hc => hO c (combinations_mem_length hc)),
      combinations_length]
  · intro hsmall
    unfold execute_recombination
    rw [combinations_small P parents hsmall]
    rfl

/-- Witness for C8: a 2-parent, 1-offspring operator on four parents yields
`C(4, 2) * 1 = 6` offspring, and on a single parent it yields none. -/
theorem execute_recombination_count_c8_witness :
    (execute_recombination 2 (fun c => [c.foldl (· + ·) (0 : ℕ)])
      [1, 2, 3, 4]).length = 6 ∧
    execute_recombination 2 (fun c => [c.foldl (· + ·) (0 : ℕ)]) [9] = [] := by
  constructor
  · exact (execute_recombination_count_c8 2 1 (fun c => [c.foldl (· + ·) (0 : ℕ)])
      (fun c _ => rfl) [1, 2, 3, 4]).1.trans (by decide)
  · exact (execute_recombination_count_c8 2 1 (fun c => [c.foldl (· + ·) (0 : ℕ)])
      (fun c _ => rfl) [9]).2 (by decide)

/-- Counterexample for C7: the SPEA-II builder accepts an empty initial
population together with `archive_size = 0` — construction succeeds instead
of rejecting either input. -/
theorem spea2_build_no_validation_c7_counterexample :
    spea2_build ([] : List ℕ) 0 = some ⟨[], 0⟩ :=
  rfl

/-- Claim C7 amended: the NSGA-II builder rejects exactly the empty initial
population at construction time (its population setter panics); the SPEA-II
builder performs no construction-time validation at all — it accepts every
population (the empty one included) and every archive size (`0` included),
and violations only surface later, from `optimize()`. -/
theorem builders_validation_c7 :
    (∀ (α : Type) (v : List α), (nsga2_builder_population v).isSome ↔ v ≠ []) ∧
    (∀ (α : Type) (pop : List α) (size : ℕ),
      spea2_build pop size = some ⟨pop, size⟩) := by
  constructor
  · intro α v
    unfold nsga2_builder_population
    cases v <;> simp
  · intro α pop size
    rfl

theorem range'_eq_map_range_add : ∀ (n s : ℕ),
    List.range' s n = (List.range n).map (fun i => i + s) := by
  intro n
  induction n with
  | zero => intro s; rfl
  | succ n ih =>
    intro s
    rw [List.range'_succ, List.range_succ_eq_map, List.map_cons, ih (s + 1),
      List.map_map]
    congr 1
    · omega
    · exact List.map_congr_left (fun i _ => by simp only [Function.comp_apply]; omega)

set_option maxRecDepth 8192 in
/-- Counterexample for C2: on a last front of five members with
single-objective scores `[1, 0, 3, 2, 4]`, the source's crowding-distance
block orders the front `[1, 4, 2, 0, 3]`, while the computation described by
the claim (every interior position updated, crowding distances read and
written through the front members) orders it `[1, 4, 0, 2, 3]` — the two
computations disagree. -/
theorem crowding_distance_c2_counterexample :
    crowding_distance_block [0, 1, 2, 3, 4] [[1], [0], [3], [2], [4]] 1 5 ≠
      crowding_distance_block_per_claim_c2 [0, 1, 2, 3, 4] [[1], [0], [3], [2], [4]] 1 5 := by
  with_unfolding_all decide

/-- Claim C2 amended: in the crowding-distance block the additive pass runs
only over the raw positions `k = 2, …, len − 3` (no positions at all when
the front has fewer than five members), and it tests and updates the
crowding-distance array at the raw indices `k`, `k − 1`, `k + 1` themselves
rather than at the front members stored at those positions; everything else
is as the claim states (per-objective ascending sort, sentinel for the
sorted front's first and last members, `Δ = max − min` or `1.0`, final sort
of the front by crowding distance descending). -/
theorem crowding_distance_c2_amended :
    ∀ (front : List ℕ) (scs : List (List ℚ)) (nObj n : ℕ),
      crowding_distance_block front scs nObj n =
        crowding_distance_block_per_amended_c2 front scs nObj n := by
  intro front scs nObj n
  unfold crowding_distance_block crowding_distance_block_per_amended_c2
  simp only [range'_eq_map_range_add]

theorem stable_insert_length {α : Type} (le : α → α → Bool) (x : α)
    (l : List α) : (stable_insert le x l).length = l.length + 1 := by
  induction l with
  | nil => rfl
  | cons y ys ih =>
    simp only [stable_insert]
    split <;> simp [ih]

theorem stable_sort_length {α : Type} (le : α → α → Bool) (l : List α) :
    (stable_sort le l).length = l.length := by
  induction l with
  | nil => rfl
  | cons x xs ih =>
    simp [stable_sort, stable_insert_length, ih]

theorem foldl_fst_length {β γ δ : Type} (g : List γ × δ → β → List γ × δ)
    (hg : ∀ s b, ((g s b).1).length = s.1.length) :
    ∀ (l : List β) (init : List γ × δ), ((l.foldl g init).1).length = init.1.length := by
  intro l
  induction l with
  | nil => intro init; rfl
  | cons b bs ih =>
    intro init
    rw [List.foldl_cons, ih (g init b), hg init b]

theorem crowding_distance_block_length_fst (front : List ℕ)
    (scs : List (List ℚ)) (nObj n : ℕ) :
    (crowding_distance_block front scs nObj n).1.length = front.length := by
  unfold crowding_distance_block
  split
  · rw [stable_sort_length]
    exact foldl_fst_length _ (fun s b => stable_sort_length _ _) (List.range nObj) _
  · rfl

theorem nsga2_select_fronts_ge (initSize : ℕ) (domLists : List (List ℕ)) :
    ∀ (fuel : ℕ) (counters lastFront acc frontNumbers : List ℕ) (frontIdx : ℕ)
      (acc2 lf2 fn2 : List ℕ),
      nsga2_select_fronts initSize domLists fuel counters lastFront acc
        frontNumbers frontIdx = some (acc2, lf2, fn2) →
      initSize ≤ acc2.length + lf2.length := by
  intro fuel
  induction fuel with
  | zero =>
    intro counters lastFront acc frontNumbers frontIdx acc2 lf2 fn2 h
    rw [nsga2_select_fronts] at h
    split at h
    · exact absurd h (by simp)
    · rename_i hc
      injection h with h2
      cases h2
      omega
  | succ f ih =>
    intro counters lastFront acc frontNumbers frontIdx acc2 lf2 fn2 h
    rw [nsga2_select_fronts] at h
    split at h
    · exact ih _ _ _ _ _ _ _ _ h
    · rename_i hc
      injection h with h2
      cases h2
      omega

theorem take_all_lengths {σ τ : Type} :
    ∀ (idx : List ℕ) (ss : List (Option σ)) (cs : List (Option τ))
      (a : List σ) (b : List τ),
      take_all idx ss cs = some (a, b) →
      a.length = idx.length ∧ b.length = idx.length := by
  intro idx
  induction idx with
  | nil =>
    intro ss cs a b h
    simp only [take_all, Option.some.injEq, Prod.mk.injEq] at h
    obtain ⟨rfl, rfl⟩ := h
    simp
  | cons i rest ih =>
    intro ss cs a b h
    simp only [take_all] at h
    split at h
    · split at h
      · rename_i s c as bs hrec
        injection h with h2
        injection h2 with ha hb
        subst ha; subst hb
        have := ih _ _ _ _ hrec
        simp [this.1, this.2]
      · exact absurd h (by simp)
    · exact absurd h (by simp)

/-- Claim C3: whenever a generation of NSGA-II completes its
crowding-distance truncation (the end of a generation), the surviving
population has exactly `initial_population_size` members and the surviving
score list has exactly as many entries as the population. -/
theorem nsga2_population_size_c3 (σ : Type) (initSize nObj : ℕ)
    (sols : List σ) (scs : List (List ℚ)) (out : List σ × List (List ℚ))
    (h : crowding_distance_selection initSize sols scs nObj = some out) :
    out.1.length = initSize ∧ out.2.length = out.1.length := by
  unfold crowding_distance_selection at h
  split at h
  · dsimp only [] at h
    split at h
    · exact absurd h (by simp)
    · rename_i hlen heq acc lastFront frontNumbers hsel
      have hge := nsga2_select_fronts_ge _ _ _ _ _ _ _ _ _ _ _ hsel
      have hta := take_all_lengths _ _ _ _ _ h
      rw [stable_sort_length, List.length_take, List.length_append,
        crowding_distance_block_length_fst] at hta
      have hmin : min initSize (acc.length + lastFront.length) = initSize :=
        Nat.min_eq_left hge
      rw [hmin] at hta
      exact ⟨hta.1, hta.2.trans hta.1.symm⟩
  · exact absurd h (by simp)

/-- Witness for C3: truncating the two-solution, two-score combined
population `[0, 1]` with initial size 1 yields exactly one survivor and one
score. -/
theorem nsga2_population_size_c3_witness :
    ([0] : List ℕ).length = 1 ∧
      ([[(0 : ℚ)]] : List (List ℚ)).length = ([0] : List ℕ).length := by
  exact nsga2_population_size_c3 ℕ 1 1 [0, 1] [[0], [1]] ([0], [[0]])
    (by with_unfolding_all decide)

theorem spea2_truncate_le (archiveSize : ℕ) :
    ∀ (fuel : ℕ) (nondom : List (ℕ × ℚ)) (dists : List (ℕ × List (ℕ × ℚ)))
      (res : List (ℕ × ℚ)),
      spea2_truncate archiveSize fuel nondom dists = some res →
      res.length ≤ archiveSize := by
  intro fuel
  induction fuel with
  | zero =>
    intro nondom dists res h
    rw [spea2_truncate] at h
    split at h
    · exact absurd h (by simp)
    · rename_i hc
      injection h with h2
      cases h2
      omega
  | succ f ih =>
    intro nondom dists res h
    rw [spea2_truncate] at h
    split at h
    · split at h
      · exact absurd h (by simp)
      · dsimp only [] at h
        split at h
        · exact absurd h (by simp)
        · exact ih _ _ _ h
    · rename_i hc
      injection h with h2
      cases h2
      omega

theorem spea2_density_pass_length (k : ℕ) :
    ∀ (rows : List (ℕ × List (ℕ × ℚ))) (sif res : List (ℕ × ℚ)),
      spea2_density_pass k rows sif = some res → res.length = sif.length := by
  intro rows
  induction rows with
  | nil =>
    intro sif res h
    injection h with h2
    simp [← h2]
  | cons row rest ih =>
    intro sif res h
    simp only [spea2_density_pass] at h
    split at h
    · exact absurd h (by simp)
    · exact (ih _ _ h).trans (List.length_set ..)

theorem spea2_extract_lengths {σ : Type} :
    ∀ (idx : List ℕ) (ss : List (Option σ)) (scs : List (List ℚ))
      (a : List σ) (b : List (List ℚ)),
      spea2_extract idx ss scs = some (a, b) →
      a.length = idx.length ∧ b.length = idx.length := by
  intro idx
  induction idx with
  | nil =>
    intro ss scs a b h
    simp only [spea2_extract, Option.some.injEq, Prod.mk.injEq] at h
    obtain ⟨rfl, rfl⟩ := h
    simp
  | cons i rest ih =>
    intro ss scs a b h
    simp only [spea2_extract] at h
    split at h
    · split at h
      · rename_i s c as bs hrec
        injection h with h2
        injection h2 with ha hb
        subst ha; subst hb
        have := ih _ _ _ _ hrec
        simp [this.1, this.2]
      · exact absurd h (by simp)
    · exact absurd h (by simp)

/-- Claim C4: whenever SPEA-II's environmental selection completes, the
surviving archive holds at most `archive_size` members (the truncation
branch removes nearest neighbours until the bound holds; the density branch
sorts by fitness-plus-density and truncates), and the surviving score list
is aligned with it. -/
theorem spea2_archive_bound_c4 (σ : Type) (archiveSize : ℕ) (sols : List σ)
    (scs : List (List ℚ)) (out : List σ × List (List ℚ))
    (h : environmental_selection archiveSize sols scs = some out) :
    out.1.length ≤ archiveSize ∧ out.2.length = out.1.length := by
  unfold environmental_selection at h
  split at h
  · exact absurd h (by simp)
  · split at h
    · dsimp only [] at h
      split at h
      · exact absurd h (by simp)
      · rename_i picked hpicked
        have hex := spea2_extract_lengths _ _ _ _ _ h
        rw [List.length_map] at hex
        have hple : picked.length ≤ archiveSize := by
          split at hpicked
          · exact spea2_truncate_le _ _ _ _ _ hpicked
          · split at hpicked
            · exact absurd hpicked (by simp)
            · injection hpicked with h2
              subst h2
              rw [List.length_take]
              exact Nat.min_le_left ..
        exact ⟨hex.1 ▸ hple, hex.2.trans hex.1.symm⟩
    · exact absurd h (by simp)

/-- Witness for C4: an archive of two members with scores `[0]` and `[1]`
and `archive_size = 1` survives environmental selection with exactly one
member and one aligned score. -/
theorem spea2_archive_bound_c4_witness :
    ([0] : List ℕ).length ≤ 1 ∧
      ([[(0 : ℚ)]] : List (List ℚ)).length = ([0] : List ℕ).length := by
  exact spea2_archive_bound_c4 ℕ 1 [0, 1] [[0], [1]] ([0], [[0]])
    (by with_unfolding_all decide)

/-- Claim C5: when a SPEA-II generation starts (the terminator said
continue), an empty merged archive makes `optimize` return the typed error
`PopulationEmpty`, and a merged archive whose score count differs from its
solution count makes it return
`ScoreCountMismatch { actual := score count, expected := solution count }` —
in both cases an error value, not a panic (`none`). -/
theorem spea2_typed_errors_c5 (σ τ : Type) (tester : List σ → List (List ℚ))
    (selector : List σ → List (List ℚ) → List σ)
    (recombiner mutator : List σ → List σ)
    (termStep : τ → List σ → List (List ℚ) → Bool × τ) (archiveSize fuel : ℕ)
    (ts : τ) (archive pop : List σ) (archiveScores popScores : List (List ℚ))
    (hcont : (termStep ts archive archiveScores).1 = false) :
    (archive ++ pop = [] →
      spea2_loop tester selector recombiner mutator termStep archiveSize
        (fuel + 1) ts archive archiveScores pop popScores =
        some (.error .populationEmpty, 0)) ∧
    (archive ++ pop ≠ [] →
      (archiveScores ++ popScores).length ≠ (archive ++ pop).length →
      spea2_loop tester selector recombiner mutator termStep archiveSize
        (fuel + 1) ts archive archiveScores pop popScores =
        some (.error
          (.scoreCountMismatch (archiveScores ++ popScores).length
            (archive ++ pop).length), 0)) := by
  constructor
  · intro hmt
    rw [spea2_loop]
    simp [hcont, hmt]
  · intro hne hmm
    have hmm2 : archiveScores.length + popScores.length ≠
        archive.length + pop.length := by
      simpa [List.length_append] using hmm
    rw [spea2_loop]
    simp [hcont, hne, hmm2]

/-- Witness for C5, mirroring the repository's own
`test_optimization_score_count_mismatch`: a whole-slice tester that returned
one score vector for a three-solution population produces
`ScoreCountMismatch { actual := 1, expected := 3 }`. -/
theorem spea2_typed_errors_c5_witness :
    spea2_loop (fun (_ : List ℕ) => [[(0 : ℚ), 0, 0]]) (fun p _ => p)
      (fun p => p) (fun p => p) generation_terminator_step 3 5 1 [] []
      [0, 1, 2] [[0, 0, 0]] =
      some (.error (.scoreCountMismatch 1 3), 0) := by
  exact (spea2_typed_errors_c5 ℕ ℕ (fun _ => [[(0 : ℚ), 0, 0]]) (fun p _ => p)
    (fun p => p) (fun p => p) generation_terminator_step 3 4 1 [] [0, 1, 2]
    [] [[0, 0, 0]] rfl).2 (by decide) (by decide)

/-- Claim C10: if the terminator reports `true` on the very first check of a
SPEA-II run — when the archive is still empty, as `GenerationTerminator(0)`
does — `optimize` panics (`none`): the final non-dominated extraction
computes `selected_sols.len() - 1` on the empty archive, which underflows. -/
theorem spea2_empty_archive_panic_c10 (σ τ : Type)
    (tester : List σ → List (List ℚ))
    (selector : List σ → List (List ℚ) → List σ)
    (recombiner mutator : List σ → List σ)
    (termStep : τ → List σ → List (List ℚ) → Bool × τ) (archiveSize fuel : ℕ)
    (ts : τ) (pop : List σ) (hstop : (termStep ts [] []).1 = true) :
    spea2_optimize tester selector recombiner mutator termStep archiveSize
      fuel ts pop = none := by
  unfold spea2_optimize
  cases fuel <;> rw [spea2_loop] <;> simp [hstop, final_extraction]

/-- Witness for C10: running the model of `Spea2::optimize` with
`GenerationTerminator(0)` on a non-empty population panics. -/
theorem spea2_empty_archive_panic_c10_witness :
    spea2_optimize (fun l => l.map (fun _ => [(0 : ℚ)])) (fun p _ => p)
      (fun p => p) (fun p => p) generation_terminator_step 5 3 0 [(7 : ℕ)] =
      none := by
  exact spea2_empty_archive_panic_c10 ℕ ℕ _ _ _ _ generation_terminator_step
    5 3 0 [7] rfl

theorem nsga2_loop_gen_count (σ : Type) (tester : List σ → List (List ℚ))
    (selector : List σ → List (List ℚ) → List σ)
    (recombiner mutator : List σ → List σ) (initSize nObj : ℕ) :
    ∀ (fuel k : ℕ) (pop : List σ) (scs : List (List ℚ)) (res : List σ) (g : ℕ),
      nsga2_loop tester selector recombiner mutator generation_terminator_step
        initSize nObj fuel k pop scs = some (res, g) →
      g = k := by
  intro fuel
  induction fuel with
  | zero =>
    intro k pop scs res g h
    rw [nsga2_loop] at h
    cases k with
    | zero =>
      simp only [generation_terminator_step, if_true] at h
      injection h with h2
      injection h2 with ha hb
      exact hb.symm
    | succ m =>
      simp [generation_terminator_step] at h
  | succ f ih =>
    intro k pop scs res g h
    rw [nsga2_loop] at h
    cases k with
    | zero =>
      simp only [generation_terminator_step, if_true] at h
      injection h with h2
      injection h2 with ha hb
      exact hb.symm
    | succ m =>
      simp only [generation_terminator_step, Bool.false_eq_true, if_false] at h
      split at h
      · exact absurd h (by simp)
      · split at h
        · exact absurd h (by simp)
        · split at h
          · exact absurd h (by simp)
          · rename_i pop2 scs2 hcds
            split at h
            · exact absurd h (by simp)
            · rename_i res2 g2 hrec
              injection h with h2
              injection h2 with ha hb
              subst hb
              exact congrArg Nat.succ (ih m pop2 scs2 res2 g2 hrec)

theorem spea2_loop_gen_count (σ : Type) (tester : List σ → List (List ℚ))
    (selector : List σ → List (List ℚ) → List σ)
    (recombiner mutator : List σ → List σ) (archiveSize : ℕ) :
    ∀ (fuel k : ℕ) (archive : List σ) (archiveScores : List (List ℚ))
      (pop : List σ) (popScores : List (List ℚ)) (res : List σ) (g : ℕ),
      spea2_loop tester selector recombiner mutator generation_terminator_step
        archiveSize fuel k archive archiveScores pop popScores =
        some (.ok res, g) →
      g = k := by
  intro fuel
  induction fuel with
  | zero =>
    intro k archive archiveScores pop popScores res g h
    rw [spea2_loop] at h
    cases k with
    | zero =>
      simp only [generation_terminator_step, if_true] at h
      split at h
      · exact absurd h (by simp)
      · injection h with h2
        injection h2 with ha hb
        exact hb.symm
    | succ m =>
      simp [generation_terminator_step] at h
  | succ f ih =>
    intro k archive archiveScores pop popScores res g h
    rw [spea2_loop] at h
    cases k with
    | zero =>
      simp only [generation_terminator_step, if_true] at h
      split at h
      · exact absurd h (by simp)
      · injection h with h2
        injection h2 with ha hb
        exact hb.symm
    | succ m =>
      simp only [generation_terminator_step, Bool.false_eq_true, if_false] at h
      split at h
      · exact absurd h (by simp)
      · split at h
        · exact absurd h (by simp)
        · split at h
          · exact absurd h (by simp)
          · rename_i surv survScores hsel
            split at h
            · exact absurd h (by simp)
            · rename_i r g2 hrec
              injection h with h2
              injection h2 with ha hb
              subst ha
              subst hb
              exact congrArg Nat.succ (ih m surv survScores _ _ res g2 hrec)

/-- Claim C9: `GenerationTerminator(k)` reports `false` and decrements on
the first `k` calls and reports `true` from the (k+1)-st call on (each call
maps counter `c` to `(c = 0, c - 1)`); consequently an NSGA-II or SPEA-II
run that starts it at `k` and returns normally executed its generational
loop body exactly `k` times. -/
theorem generation_terminator_count_c9 :
    (∀ (σ : Type) (k : ℕ) (pop : List σ) (scs : List (List ℚ)),
        generation_terminator_step k pop scs = (decide (k = 0), k - 1)) ∧
    (∀ (σ : Type) (tester : List σ → List (List ℚ))
        (selector : List σ → List (List ℚ) → List σ)
        (recombiner mutator : List σ → List σ) (initSize nObj fuel k : ℕ)
        (pop : List σ) (scs : List (List ℚ)) (res : List σ) (g : ℕ),
        nsga2_loop tester selector recombiner mutator
          generation_terminator_step initSize nObj fuel k pop scs =
          some (res, g) →
        g = k) ∧
    (∀ (σ : Type) (tester : List σ → List (List ℚ))
        (selector : List σ → List (List ℚ) → List σ)
        (recombiner mutator : List σ → List σ) (archiveSize fuel k : ℕ)
        (archive : List σ) (archiveScores : List (List ℚ)) (pop : List σ)
        (popScores : List (List ℚ)) (res : List σ) (g : ℕ),
        spea2_loop tester selector recombiner mutator
          generation_terminator_step archiveSize fuel k archive archiveScores
          pop popScores = some (.ok res, g) →
        g = k) := by
  refine ⟨fun σ k pop scs => ?_, fun σ t s r m i n fuel k => ?_,
    fun σ t s r m a fuel k => ?_⟩
  · cases k <;> simp [generation_terminator_step]
  · exact fun pop scs res g h => nsga2_loop_gen_count σ t s r m i n fuel k pop scs res g h
  · exact fun ar ascs pop pscs res g h =>
      spea2_loop_gen_count σ t s r m a fuel k ar ascs pop pscs res g h

/-- Witness for C9: a one-generation NSGA-II run and a one-generation
SPEA-II run, both driven by `GenerationTerminator(1)`, report exactly one
executed generation. -/
theorem generation_terminator_count_c9_witness :
    nsga2_loop (fun l => l.map (fun _ => [(0 : ℚ)])) (fun p _ => p)
      (fun p => p) (fun p => p) generation_terminator_step 1 1 3 1 [(0 : ℕ)]
      [[0]] = some ([0], 1) ∧ (1 : ℕ) = 1 := by
  have h : nsga2_loop (fun l => l.map (fun _ => [(0 : ℚ)])) (fun p _ => p)
      (fun p => p) (fun p => p) generation_terminator_step 1 1 3 1 [(0 : ℕ)]
      [[0]] = some ([0], 1) := by
    with_unfolding_all decide
  exact ⟨h, generation_terminator_count_c9.2.1 ℕ _ _ _ _ 1 1 3 1 [0] [[0]]
    [0] 1 h⟩
